import Mathlib

/-!
Verification development for the cellarr-frame dataframe adapter.

The repository layers pandas-style dataframe semantics over a dense or
sparse array engine.  This file gives a shallow embedding of the pure
logic of that layer: slice-stop translation, coordinate stack/unstack
round-trips, best-effort numeric coercion, primary-key auto-selection
with fill filtering, indexing-operator dispatch, shape computation,
constructor validation, metadata caching, and null-character scrubbing.
-/

/-- Scalar values carried by the logical frames.  The adapter only ever
distinguishes numeric values from string values (numbers are stringified
on write and re-parsed best-effort on read), so the model restricts the
scalar universe to integers and strings. -/
inductive PVal where
  | vInt (n : Int)
  | vStr (s : String)
deriving DecidableEq, Repr

/-- String encoding applied when a value is written to the string-typed
attribute of the sparse array (values are written via to_numpy with
dtype str). -/
def encodePVal : PVal → String
  | .vInt n => toString n
  | .vStr s => s

/-- Digits-to-number accumulator for the integer parser. -/
def parseNatAux : List Char → Nat → Option Nat
  | [], acc => some acc
  | c :: cs, acc =>
      if c.isDigit then parseNatAux cs (acc * 10 + (c.toNat - 48))
      else none

/-- Best-effort numeric parse of one string, the scalar core of the
to_numeric coercion used on read: an optional leading minus sign followed
by one or more decimal digits. -/
def parseNum (s : String) : Option Int :=
  match s.toList with
  | [] => none
  | c :: cs =>
      if c = Char.ofNat 45 then
        match cs with
        | [] => none
        | _ :: _ => (parseNatAux cs 0).map fun n => -(n : Int)
      else (parseNatAux (c :: cs) 0).map fun n => (n : Int)

/-- A Python slice object with optional integer bounds, as received by
the slice-reading paths. -/
structure PySlice where
  start : Option Int
  stop : Option Int
  step : Option Int
deriving DecidableEq, Repr

/-- Slice-stop adjustment performed by the generic frame reader before
delegating to the engine: any integer stop is decremented by one, except
that a stop of 0 with an absent start becomes -1. -/
def read_slice_adjust (s : PySlice) : PySlice :=
  match s.stop with
  | none => s
  | some stop =>
      if stop = 0 ∧ s.start = none then
        { s with stop := some (-1) }
      else
        { s with stop := some (stop - 1) }

/-- Slice-stop adjustment performed by the dense adapter's subset branch:
the stop is decremented only when it is positive and the start is absent
or smaller than the stop; otherwise the slice is passed through. -/
def dense_adjust_subset (s : PySlice) : PySlice :=
  match s.stop with
  | none => s
  | some stop =>
      let startOk : Bool :=
        match s.start with
        | none => true
        | some st => decide (stop > st)
      if startOk && decide (stop > 0) then
        { s with stop := some (stop - 1) }
      else
        s

/-- The engine's slicing convention on a 1-D dense domain 0..n-1: both
bounds are inclusive, an absent start means the domain minimum and an
absent stop means the domain maximum (step absent in the modelled calls). -/
def engine_rows_inclusive (n : Nat) (s : PySlice) : List Int :=
  let lo : Int := s.start.getD 0
  let hi : Int := s.stop.getD ((n : Int) - 1)
  ((List.range n).map Int.ofNat).filter (fun i => lo ≤ i && i ≤ hi)

/-- Rows produced by a range read that goes through the generic frame
reader. -/
def frame_read_range (n : Nat) (s : PySlice) : List Int :=
  engine_rows_inclusive n (read_slice_adjust s)

/-- Rows produced by a range read that goes through the dense adapter's
subset branch. -/
def dense_read_range (n : Nat) (s : PySlice) : List Int :=
  engine_rows_inclusive n (dense_adjust_subset s)

/-- C1 counterexample: the dense adapter's subset branch does not map a
slice with absent start and stop 0 to an effective stop of -1; it leaves
the slice unadjusted, and the inclusive engine read then returns row 0
rather than an empty result. -/
theorem C1_counterexample :
    (dense_adjust_subset ⟨none, some 0, none⟩).stop ≠ some (-1) ∧
    dense_read_range 4 ⟨none, some 0, none⟩ = [0] := by
  decide

/-- C1 (amended): for a positive integer stop with start absent or below
the stop, both the generic frame reader and the dense subset branch pass
effective stop = stop - 1 to the engine; a stop of 0 with absent start is
mapped to -1 (empty read) by the generic frame reader only, while the
dense subset branch leaves such a slice unadjusted; in particular a range
read of slice(0, 2) over a 4-row dense array yields exactly rows 0 and 1
on both paths. -/
theorem C1_slice_stop_translation (s : PySlice) (stop : Int)
    (hs : s.stop = some stop) :
    (0 < stop → (s.start = none ∨ ∃ st, s.start = some st ∧ st < stop) →
      (read_slice_adjust s).stop = some (stop - 1) ∧
      (dense_adjust_subset s).stop = some (stop - 1)) ∧
    (stop = 0 → s.start = none →
      (read_slice_adjust s).stop = some (-1) ∧
      dense_adjust_subset s = s) ∧
    frame_read_range 4 ⟨some 0, some 2, none⟩ = [0, 1] ∧
    dense_read_range 4 ⟨some 0, some 2, none⟩ = [0, 1] := by
  obtain ⟨a, b, c⟩ := s
  simp only [PySlice.stop] at hs
  subst hs
  refine ⟨?_, ?_, by decide, by decide⟩
  · intro hpos hstart
    constructor
    · have hne : ¬(stop = 0 ∧ (PySlice.mk a (some stop) c).start = none) := by
        rintro ⟨h0, _⟩
        omega
      simp [read_slice_adjust, hne]
    · rcases hstart with h | ⟨st, hst, hlt⟩
      · simp only [PySlice.start] at h
        subst h
        simp [dense_adjust_subset, hpos]
      · simp only [PySlice.start] at hst
        subst hst
        simp [dense_adjust_subset, hpos, hlt]
  · intro h0 hstart
    simp only [PySlice.start] at hstart
    subst hstart
    subst h0
    constructor
    · simp [read_slice_adjust]
    · simp [dense_adjust_subset]

/-- C1 witness: the amended theorem applied to slice(0, 2). -/
theorem C1_slice_stop_translation_witness :
    (read_slice_adjust ⟨some 0, some 2, none⟩).stop = some 1 ∧
    (dense_adjust_subset ⟨some 0, some 2, none⟩).stop = some 1 :=
  (C1_slice_stop_translation ⟨some 0, some 2, none⟩ 2 rfl).1 (by decide)
    (Or.inr ⟨0, rfl, by decide⟩)

/-- Lexicographic comparison of character lists, the executable core of
the string ordering used for sorted axes. -/
def charListLt : List Char → List Char → Bool
  | _, [] => false
  | [], _ :: _ => true
  | c :: cs, d :: ds =>
      if c < d then true
      else if d < c then false
      else charListLt cs ds

/-- Lexicographic string comparison by code point. -/
def strLt (a b : String) : Bool := charListLt a.toList b.toList

/-- Strict ordering used to model the sorted axes produced by the pandas
unstack pivot: integers order numerically, strings lexicographically, and
integers sort before strings (the claims only ever use axes of one
uniform label type). -/
def pvalLt : PVal → PVal → Bool
  | .vInt a, .vInt b => decide (a < b)
  | .vInt _, .vStr _ => true
  | .vStr _, .vInt _ => false
  | .vStr a, .vStr b => strLt a b

/-- One coordinate record of the sparse array: a (row label, col label)
key and the string-encoded stored value. -/
structure Coord where
  row : PVal
  col : PVal
  value : String
deriving DecidableEq, Repr

/-- A logical (pandas) frame: labelled axes and a row-major cell grid in
which a missing cell (NaN) is none. -/
structure PandasDF where
  rowLabels : List PVal
  colLabels : List PVal
  cells : List (List (Option PVal))
deriving DecidableEq, Repr

/-- The stack-and-dropna flattening performed by the sparse writer: the
non-missing cells are enumerated row-major as coordinate records whose
values are stringified. -/
def stackRecords (df : PandasDF) : List Coord :=
  (df.rowLabels.zip df.cells).flatMap fun rc =>
    (df.colLabels.zip rc.2).filterMap fun cv =>
      cv.2.map fun v => ⟨rc.1, cv.1, encodePVal v⟩

/-- Key equality of two coordinate records. -/
def coordKeyEq (a b : Coord) : Bool :=
  a.row == b.row && a.col == b.col

/-- Engine write of one coordinate cell: an existing record with the same
key is overwritten, otherwise the record is appended. -/
def upsert (st : List Coord) (r : Coord) : List Coord :=
  if st.any (fun t => coordKeyEq t r) then
    st.map fun t => if coordKeyEq t r then r else t
  else
    st ++ [r]

/-- The sparse writer: the frame is flattened to coordinate records; an
empty record list returns without touching the store, otherwise every
record is written. -/
def write_dataframe (df : PandasDF) (st : List Coord) : List Coord :=
  let recs := stackRecords df
  if recs.isEmpty then st else recs.foldl upsert st

/-- Ordered duplicate-free insertion, the building block of the sorted
axes of an unstack pivot. -/
def insertPV (x : PVal) : List PVal → List PVal
  | [] => [x]
  | y :: ys =>
      if pvalLt x y then x :: y :: ys
      else if x = y then y :: ys
      else y :: insertPV x ys

/-- Sorted deduplicated list of labels. -/
def dedupSortPV (l : List PVal) : List PVal := l.foldr insertPV []

/-- Value stored at a (row, col) key, if any. -/
def lookupCoord (records : List Coord) (r c : PVal) : Option String :=
  (records.find? fun t => t.row == r && t.col == c).map (·.value)

/-- The unstack pivot: the row axis is the sorted set of row labels, the
column axis the sorted set of column labels, and each cell holds the
stored string at that key or is missing. -/
def unstackRecords (records : List Coord) : PandasDF :=
  { rowLabels := dedupSortPV (records.map (·.row))
    colLabels := dedupSortPV (records.map (·.col))
    cells := (dedupSortPV (records.map (·.row))).map fun r =>
      (dedupSortPV (records.map (·.col))).map fun c =>
        (lookupCoord records r c).map .vStr }

/-- Numeric view of a label or cell value, if it has one. -/
def pvalToNum : PVal → Option Int
  | .vInt n => some n
  | .vStr s => parseNum s

/-- Best-effort numeric coercion of a whole axis: the axis converts only
if every label parses, otherwise it is left unchanged. -/
def coerceAxis (labels : List PVal) : List PVal :=
  if (labels.map pvalToNum).all Option.isSome then
    labels.map fun l =>
      match pvalToNum l with
      | some n => PVal.vInt n
      | none => l
  else labels

/-- Whether one cell lets its column coerce: missing cells pass through
to_numeric, present cells must parse. -/
def cellIsNumeric : Option PVal → Bool
  | none => true
  | some v => (pvalToNum v).isSome

/-- Numeric coercion of one cell. -/
def coerceCell : Option PVal → Option PVal
  | none => none
  | some v =>
      match pvalToNum v with
      | some n => some (PVal.vInt n)
      | none => some v

/-- Column j of a row-major grid. -/
def gridCol (cells : List (List (Option PVal))) (j : Nat) : List (Option PVal) :=
  cells.map fun row => row.getD j none

/-- Best-effort numeric coercion applied independently to every column of
the grid: a column converts only if all of its cells parse (missing cells
pass), otherwise that column is left unchanged. -/
def coerceCellsByColumn (cells : List (List (Option PVal))) : List (List (Option PVal)) :=
  cells.map fun row =>
    row.mapIdx fun j v =>
      if (gridCol cells j).all cellIsNumeric then coerceCell v else v

/-- Reconstruction step of the sparse reader applied to the fetched
record set: an empty fetch yields the empty frame with no columns, a
non-empty fetch is pivoted and then coerced axis-by-axis and
column-by-column. -/
def reconstruct_dataframe (records : List Coord) : PandasDF :=
  if records.isEmpty then ⟨[], [], []⟩
  else
    let df := unstackRecords records
    { rowLabels := coerceAxis df.rowLabels
      colLabels := coerceAxis df.colLabels
      cells := coerceCellsByColumn df.cells }

/-- Record fetch for one read call: the engine returns the stored records
selected by the call's slice, query, or full scan. -/
def fetchRecords (st : List Coord) (sel : Coord → Bool) : List Coord :=
  st.filter sel

/-- A sparse read through an arbitrary selector (slice, query string, or
full scan). -/
def sparse_read_with_selector (st : List Coord) (sel : Coord → Bool) : PandasDF :=
  reconstruct_dataframe (fetchRecords st sel)

/-- A sparse read with no row selector, column list, or query. -/
def read_dataframe_full (st : List Coord) : PandasDF :=
  reconstruct_dataframe st


theorem charListLt_irrefl (l : List Char) : charListLt l l = false := by
  induction l with
  | nil => rfl
  | cons c cs ih => simp [charListLt, ih]

theorem charListLt_asymm : ∀ {a b : List Char},
    charListLt a b = true → charListLt b a = false := by
  intro a
  induction a with
  | nil =>
      intro b h
      cases b with
      | nil => simp [charListLt] at h
      | cons d ds => rfl
  | cons c cs ih =>
      intro b h
      cases b with
      | nil => simp [charListLt] at h
      | cons d ds =>
          by_cases hcd : c < d
          · have hdc : ¬d < c := lt_asymm hcd
            simp [charListLt, hcd, hdc]
          · by_cases hdc : d < c
            · simp [charListLt, hcd, hdc] at h
            · simp only [charListLt, if_neg hcd, if_neg hdc] at h
              simp only [charListLt, if_neg hdc, if_neg hcd]
              exact ih h

theorem charListLt_trans : ∀ {a b c : List Char},
    charListLt a b = true → charListLt b c = true → charListLt a c = true := by
  intro a
  induction a with
  | nil =>
      intro b c h₁ h₂
      cases b with
      | nil => simp [charListLt] at h₁
      | cons y ys =>
          cases c with
          | nil => simp [charListLt] at h₂
          | cons z zs => rfl
  | cons x xs ih =>
      intro b c h₁ h₂
      cases b with
      | nil => simp [charListLt] at h₁
      | cons y ys =>
          cases c with
          | nil => simp [charListLt] at h₂
          | cons z zs =>
              by_cases hxy : x < y
              · by_cases hyz : y < z
                · simp [charListLt, lt_trans hxy hyz]
                · by_cases hzy : z < y
                  · simp [charListLt, hyz, hzy] at h₂
                  · have hyzeq : y = z := le_antisymm (not_lt.mp hzy) (not_lt.mp hyz)
                    subst hyzeq
                    simp [charListLt, hxy]
              · by_cases hyx : y < x
                · simp [charListLt, hxy, hyx] at h₁
                · have hxyeq : x = y := le_antisymm (not_lt.mp hyx) (not_lt.mp hxy)
                  subst hxyeq
                  by_cases hyz : x < z
                  · simp [charListLt, hyz]
                  · by_cases hzy : z < x
                    · simp [charListLt, hyz, hzy] at h₂
                    · simp only [charListLt, if_neg hxy, if_neg hyx] at h₁
                      simp only [charListLt, if_neg hyz, if_neg hzy] at h₂ ⊢
                      exact ih h₁ h₂

theorem charListLt_connex : ∀ {a b : List Char}, a ≠ b →
    charListLt a b = true ∨ charListLt b a = true := by
  intro a
  induction a with
  | nil =>
      intro b h
      cases b with
      | nil => exact absurd rfl h
      | cons d ds => exact Or.inl rfl
  | cons c cs ih =>
      intro b h
      cases b with
      | nil => exact Or.inr rfl
      | cons d ds =>
          rcases lt_trichotomy c d with h' | h' | h'
          · exact Or.inl (by simp [charListLt, h'])
          · subst h'
            have hne : cs ≠ ds := by
              intro he
              exact h (by rw [he])
            rcases ih hne with h2 | h2
            · exact Or.inl (by simp [charListLt, h2])
            · exact Or.inr (by simp [charListLt, h2])
          · exact Or.inr (by simp [charListLt, h'])

theorem strLt_connex {a b : String} (h : a ≠ b) :
    strLt a b = true ∨ strLt b a = true := by
  apply charListLt_connex
  intro he
  apply h
  have hd : a.data = b.data := he
  exact congrArg String.mk hd

theorem pvalLt_irrefl (x : PVal) : pvalLt x x = false := by
  cases x with
  | vInt a => simp [pvalLt]
  | vStr s => exact charListLt_irrefl s.toList

theorem pvalLt_asymm {x y : PVal} (h : pvalLt x y = true) : pvalLt y x = false := by
  cases x with
  | vInt a =>
      cases y with
      | vInt b =>
          simp only [pvalLt, decide_eq_true_eq] at h
          simp only [pvalLt, decide_eq_false_iff_not]
          omega
      | vStr b => rfl
  | vStr a =>
      cases y with
      | vInt b => simp [pvalLt] at h
      | vStr b => exact charListLt_asymm h

theorem pvalLt_trans {x y z : PVal} (h₁ : pvalLt x y = true) (h₂ : pvalLt y z = true) :
    pvalLt x z = true := by
  cases x with
  | vInt a =>
      cases y with
      | vInt b =>
          cases z with
          | vInt c =>
              simp only [pvalLt, decide_eq_true_eq] at h₁ h₂ ⊢
              omega
          | vStr c => rfl
      | vStr b =>
          cases z with
          | vInt c => simp [pvalLt] at h₂
          | vStr c => rfl
  | vStr a =>
      cases y with
      | vInt b => simp [pvalLt] at h₁
      | vStr b =>
          cases z with
          | vInt c => simp [pvalLt] at h₂
          | vStr c => exact charListLt_trans h₁ h₂

theorem pvalLt_connex {x y : PVal} (h : x ≠ y) :
    pvalLt x y = true ∨ pvalLt y x = true := by
  cases x with
  | vInt a =>
      cases y with
      | vInt b =>
          have hab : a ≠ b := by
            intro he
            exact h (by rw [he])
          simp only [pvalLt, decide_eq_true_eq]
          omega
      | vStr b => exact Or.inl rfl
  | vStr a =>
      cases y with
      | vInt b => exact Or.inr rfl
      | vStr b =>
          have hab : a ≠ b := by
            intro he
            exact h (by rw [he])
          exact strLt_connex hab

abbrev PVSorted (l : List PVal) : Prop :=
  l.Pairwise fun a b => pvalLt a b = true

theorem insertPV_of_lt {x y : PVal} {ys : List PVal} (h : pvalLt x y = true) :
    insertPV x (y :: ys) = x :: y :: ys := by
  simp [insertPV, h]

theorem insertPV_of_eq {x : PVal} {ys : List PVal} :
    insertPV x (x :: ys) = x :: ys := by
  simp [insertPV, pvalLt_irrefl]

theorem insertPV_of_gt {x y : PVal} {ys : List PVal} (h : ¬pvalLt x y = true)
    (hne : x ≠ y) : insertPV x (y :: ys) = y :: insertPV x ys := by
  simp [insertPV, h, hne]

theorem mem_insertPV {a x : PVal} {l : List PVal} :
    a ∈ insertPV x l ↔ a = x ∨ a ∈ l := by
  induction l with
  | nil => simp [insertPV]
  | cons y ys ih =>
      by_cases h₁ : pvalLt x y = true
      · rw [insertPV_of_lt h₁]
        simp
      · by_cases h₂ : x = y
        · subst h₂
          rw [insertPV_of_eq]
          simp only [List.mem_cons]
          tauto
        · rw [insertPV_of_gt h₁ h₂]
          simp only [List.mem_cons, ih]
          tauto

theorem sorted_insertPV {x : PVal} {l : List PVal} (hl : PVSorted l) :
    PVSorted (insertPV x l) := by
  induction l with
  | nil => simp [insertPV, PVSorted]
  | cons y ys ih =>
      rcases (List.pairwise_cons.mp hl) with ⟨hy, hys⟩
      by_cases h₁ : pvalLt x y = true
      · rw [insertPV_of_lt h₁]
        refine List.pairwise_cons.mpr ⟨?_, hl⟩
        intro b hb
        rcases List.mem_cons.mp hb with hb | hb
        · exact hb ▸ h₁
        · exact pvalLt_trans h₁ (hy b hb)
      · by_cases h₂ : x = y
        · subst h₂
          rw [insertPV_of_eq]
          exact hl
        · have hyx : pvalLt y x = true := by
            rcases pvalLt_connex h₂ with h | h
            · exact absurd h h₁
            · exact h
          rw [insertPV_of_gt h₁ h₂]
          refine List.pairwise_cons.mpr ⟨?_, ih hys⟩
          intro b hb
          rcases mem_insertPV.mp hb with hb | hb
          · exact hb ▸ hyx
          · exact hy b hb

theorem sorted_dedupSortPV (l : List PVal) : PVSorted (dedupSortPV l) := by
  induction l with
  | nil => simp [dedupSortPV, PVSorted]
  | cons x xs ih => exact sorted_insertPV ih

theorem mem_dedupSortPV {a : PVal} {l : List PVal} :
    a ∈ dedupSortPV l ↔ a ∈ l := by
  induction l with
  | nil => simp [dedupSortPV]
  | cons x xs ih =>
      simp only [dedupSortPV, List.foldr_cons]
      rw [mem_insertPV]
      simp only [List.mem_cons]
      rw [show (List.foldr insertPV [] xs) = dedupSortPV xs from rfl, ih]

theorem sorted_head_not_mem {y : PVal} {ys : List PVal}
    (h : PVSorted (y :: ys)) : y ∉ ys := by
  intro hmem
  rcases List.pairwise_cons.mp h with ⟨hy, _⟩
  have := hy y hmem
  simp [pvalLt_irrefl] at this

theorem sorted_mem_eq {s t : List PVal} (hs : PVSorted s) (ht : PVSorted t)
    (hmem : ∀ x, x ∈ s ↔ x ∈ t) : s = t := by
  induction s generalizing t with
  | nil =>
      cases t with
      | nil => rfl
      | cons b bs => exact absurd ((hmem b).mpr (List.mem_cons_self b bs)) (by simp)
  | cons a as ih =>
      cases t with
      | nil => exact absurd ((hmem a).mp (List.mem_cons_self a as)) (by simp)
      | cons b bs =>
          rcases List.pairwise_cons.mp hs with ⟨ha, has⟩
          rcases List.pairwise_cons.mp ht with ⟨hb, hbs⟩
          have hab : a = b := by
            by_contra hne
            rcases pvalLt_connex hne with h | h
            · rcases List.mem_cons.mp ((hmem a).mp (List.mem_cons_self a as)) with h' | h'
              · exact hne h'
              · have h1 := hb a h'
                have h2 := pvalLt_asymm h
                simp_all
            · rcases List.mem_cons.mp ((hmem b).mpr (List.mem_cons_self b bs)) with h' | h'
              · exact hne h'.symm
              · have h1 := ha b h'
                have h2 := pvalLt_asymm h
                simp_all
          subst hab
          have hnas : a ∉ as := sorted_head_not_mem hs
          have hnbs : a ∉ bs := sorted_head_not_mem ht
          have hteq : as = bs := by
            apply ih has hbs
            intro x
            constructor
            · intro hx
              rcases List.mem_cons.mp ((hmem x).mp (List.mem_cons.mpr (Or.inr hx))) with h' | h'
              · subst h'
                exact absurd hx hnas
              · exact h'
            · intro hx
              rcases List.mem_cons.mp ((hmem x).mpr (List.mem_cons.mpr (Or.inr hx))) with h' | h'
              · subst h'
                exact absurd hx hnbs
              · exact h'
          rw [hteq]

theorem dedupSortPV_eq_of_sorted {l target : List PVal} (ht : PVSorted target)
    (hmem : ∀ x, x ∈ l ↔ x ∈ target) : dedupSortPV l = target := by
  apply sorted_mem_eq (sorted_dedupSortPV l) ht
  intro x
  rw [mem_dedupSortPV]
  exact hmem x

/-- C3: a sparse read whose fetched coordinate record set is empty, under
any selector (slice, query, or full scan), returns the empty logical
frame with zero rows and zero columns, and that frame differs from a
zero-row frame with known columns. -/
theorem C3_empty_fetch_empty_frame (st : List Coord) (sel : Coord → Bool)
    (hempty : fetchRecords st sel = []) :
    sparse_read_with_selector st sel = ⟨[], [], []⟩ ∧
    (sparse_read_with_selector st sel).rowLabels.length = 0 ∧
    (sparse_read_with_selector st sel).colLabels.length = 0 ∧
    (PandasDF.mk [] [PVal.vStr "c"] [] ≠ PandasDF.mk [] [] []) := by
  have h : sparse_read_with_selector st sel = ⟨[], [], []⟩ := by
    unfold sparse_read_with_selector
    rw [hempty]
    rfl
  refine ⟨h, ?_, ?_, by decide⟩ <;> rw [h] <;> rfl

/-- C3 witness: a read over a non-empty store whose selector matches
nothing. -/
theorem C3_empty_fetch_empty_frame_witness :
    fetchRecords [⟨PVal.vStr "a", PVal.vStr "b", "1"⟩] (fun _ => false) = [] ∧
    sparse_read_with_selector [⟨PVal.vStr "a", PVal.vStr "b", "1"⟩] (fun _ => false)
      = ⟨[], [], []⟩ :=
  ⟨rfl, (C3_empty_fetch_empty_frame [⟨PVal.vStr "a", PVal.vStr "b", "1"⟩]
    (fun _ => false) rfl).1⟩

/-- C4: writing a frame all of whose cells are missing produces zero
coordinate records, leaves any stored state unchanged, and a subsequent
unfiltered read of an initially empty store returns the empty frame of
length zero. -/
theorem C4_all_missing_write_is_noop (D : PandasDF) (st : List Coord)
    (hall : ∀ row ∈ D.cells, ∀ v ∈ row, v = none) :
    stackRecords D = [] ∧
    write_dataframe D st = st ∧
    read_dataframe_full (write_dataframe D []) = ⟨[], [], []⟩ ∧
    (read_dataframe_full (write_dataframe D [])).rowLabels.length = 0 := by
  have hstack : stackRecords D = [] := by
    unfold stackRecords
    rw [List.flatMap_eq_nil_iff]
    intro rc hrc
    rw [List.filterMap_eq_nil_iff]
    intro cv hcv
    have hrow : rc.2 ∈ D.cells := (List.of_mem_zip hrc).2
    have hv : cv.2 ∈ rc.2 := (List.of_mem_zip hcv).2
    rw [hall rc.2 hrow cv.2 hv]
    rfl
  have hw : ∀ s, write_dataframe D s = s := by
    intro s
    unfold write_dataframe
    rw [hstack]
    rfl
  refine ⟨hstack, hw st, ?_, ?_⟩ <;> rw [hw []] <;> rfl

/-- C4 witness: the theorem applied to a one-cell all-missing frame. -/
theorem C4_all_missing_write_is_noop_witness :
    write_dataframe ⟨[PVal.vStr "r"], [PVal.vStr "c"], [[none]]⟩ [] = [] ∧
    read_dataframe_full
      (write_dataframe ⟨[PVal.vStr "r"], [PVal.vStr "c"], [[none]]⟩ []) = ⟨[], [], []⟩ :=
  ⟨(C4_all_missing_write_is_noop ⟨[PVal.vStr "r"], [PVal.vStr "c"], [[none]]⟩ []
      (by decide)).2.1,
   (C4_all_missing_write_is_noop ⟨[PVal.vStr "r"], [PVal.vStr "c"], [[none]]⟩ []
      (by decide)).2.2.1⟩

/-- One row block of the stack flattening: the records contributed by row
label r with cell list row. -/
def stackBlock (r : PVal) (cl : List PVal) (row : List (Option PVal)) : List Coord :=
  (cl.zip row).filterMap fun cv => cv.2.map fun v => ⟨r, cv.1, encodePVal v⟩

/-- String-encoding of every cell of a grid, the state cells are in right
after the unstack pivot and before numeric coercion. -/
def encodeGrid (cells : List (List (Option PVal))) : List (List (Option PVal)) :=
  cells.map fun row => row.map (Option.map fun v => PVal.vStr (encodePVal v))

theorem stackRecords_cons (r : PVal) (rl : List PVal) (cl : List PVal)
    (row : List (Option PVal)) (cg : List (List (Option PVal))) :
    stackRecords ⟨r :: rl, cl, row :: cg⟩ =
      stackBlock r cl row ++ stackRecords ⟨rl, cl, cg⟩ := by
  simp [stackRecords, stackBlock, List.zip_cons_cons]

theorem mem_stackBlock {t : Coord} {r : PVal} {cl : List PVal}
    {row : List (Option PVal)} (h : t ∈ stackBlock r cl row) :
    t.row = r ∧ t.col ∈ cl := by
  rcases List.mem_filterMap.mp h with ⟨cv, hcv, heq⟩
  rcases Option.map_eq_some'.mp heq with ⟨v, hv, rfl⟩
  exact ⟨rfl, (List.of_mem_zip hcv).1⟩

theorem mem_stackRecords {t : Coord} (rl cl : List PVal)
    (cg : List (List (Option PVal))) (h : t ∈ stackRecords ⟨rl, cl, cg⟩) :
    t.row ∈ rl ∧ t.col ∈ cl := by
  rcases List.mem_flatMap.mp h with ⟨rc, hrc, hin⟩
  rcases List.mem_filterMap.mp hin with ⟨cv, hcv, heq⟩
  rcases Option.map_eq_some'.mp heq with ⟨v, hv, rfl⟩
  exact ⟨(List.of_mem_zip hrc).1, (List.of_mem_zip hcv).1⟩

theorem mem_zip_of_getElem {α β : Type} (l₁ : List α) (l₂ : List β) (i : Nat)
    (h₁ : i < l₁.length) (h₂ : i < l₂.length) :
    (l₁[i], l₂[i]) ∈ l₁.zip l₂ := by
  induction l₁ generalizing l₂ i with
  | nil => simp at h₁
  | cons x xs ih =>
      cases l₂ with
      | nil => simp at h₂
      | cons y ys =>
          cases i with
          | zero => simp [List.zip_cons_cons]
          | succ k =>
              simp only [List.length_cons] at h₁ h₂
              simp only [List.zip_cons_cons, List.getElem_cons_succ]
              exact List.mem_cons.mpr (Or.inr (ih ys k (by omega) (by omega)))

theorem find?_append {α : Type} (p : α → Bool) (l₁ l₂ : List α) :
    (l₁ ++ l₂).find? p = ((l₁.find? p).orElse fun _ => l₂.find? p) := by
  induction l₁ with
  | nil => simp
  | cons x xs ih =>
      by_cases hx : p x = true
      · rw [List.cons_append, List.find?_cons_of_pos _ hx, List.find?_cons_of_pos _ hx]
        rfl
      · rw [List.cons_append, List.find?_cons_of_neg _ (by simp [hx]),
          List.find?_cons_of_neg _ (by simp [hx])]
        exact ih

theorem stackBlock_find?_none {r rq c : PVal} {cl : List PVal}
    {row : List (Option PVal)} (hc : c ∉ cl) :
    (stackBlock r cl row).find? (fun t => t.row == rq && t.col == c) = none := by
  rw [List.find?_eq_none]
  intro t ht
  rcases mem_stackBlock ht with ⟨_, hcol⟩
  intro hp
  rcases Bool.and_eq_true_iff.mp hp with ⟨_, h2⟩
  exact hc (eq_of_beq h2 ▸ hcol)

theorem stackRecords_find?_none {rq c : PVal} {rl cl : List PVal}
    {cg : List (List (Option PVal))} (hr : rq ∉ rl) :
    (stackRecords ⟨rl, cl, cg⟩).find? (fun t => t.row == rq && t.col == c) = none := by
  rw [List.find?_eq_none]
  intro t ht
  rcases mem_stackRecords rl cl cg ht with ⟨hrow, _⟩
  intro hp
  rcases Bool.and_eq_true_iff.mp hp with ⟨h1, _⟩
  exact hr (eq_of_beq h1 ▸ hrow)

theorem stackBlock_find? (r : PVal) (cl : List PVal) (row : List (Option PVal))
    (hlen : row.length = cl.length) (hnd : cl.Nodup) (j : Nat) (hj : j < cl.length) :
    (stackBlock r cl row).find? (fun t => t.row == r && t.col == cl[j]) =
      (row.getD j none).map fun v => ⟨r, cl[j], encodePVal v⟩ := by
  induction cl generalizing row j with
  | nil => simp at hj
  | cons c cs ih =>
      cases row with
      | nil => simp at hlen
      | cons v vs =>
          rcases List.nodup_cons.mp hnd with ⟨hcn, hcs⟩
          cases j with
          | zero =>
              cases v with
              | none =>
                  simp only [stackBlock, List.zip_cons_cons, List.filterMap_cons,
                    Option.map_none', List.getElem_cons_zero, List.getD_cons_zero]
                  exact stackBlock_find?_none hcn
              | some x =>
                  simp only [stackBlock, List.zip_cons_cons, List.filterMap_cons,
                    Option.map_some', List.getElem_cons_zero, List.getD_cons_zero]
                  rw [List.find?_cons_of_pos _ (by simp)]
          | succ k =>
              simp only [List.length_cons] at hlen hj
              have hne : c ≠ cs[k] := by
                intro he
                exact hcn (he ▸ List.getElem_mem (by omega))
              cases v with
              | none =>
                  simp only [stackBlock, List.zip_cons_cons, List.filterMap_cons,
                    Option.map_none', List.getElem_cons_succ, List.getD_cons_succ]
                  exact ih vs (by omega) hcs k (by omega)
              | some x =>
                  simp only [stackBlock, List.zip_cons_cons, List.filterMap_cons,
                    Option.map_some', List.getElem_cons_succ, List.getD_cons_succ]
                  rw [List.find?_cons_of_neg _ (by simp [hne])]
                  exact ih vs (by omega) hcs k (by omega)

theorem stackRecords_find? (rl cl : List PVal) (cg : List (List (Option PVal)))
    (hlen : cg.length = rl.length) (hrow : ∀ row ∈ cg, row.length = cl.length)
    (hndr : rl.Nodup) (hndc : cl.Nodup) (i j : Nat)
    (hi : i < rl.length) (hj : j < cl.length) :
    (stackRecords ⟨rl, cl, cg⟩).find? (fun t => t.row == rl[i] && t.col == cl[j]) =
      ((cg[i]).getD j none).map fun v => ⟨rl[i], cl[j], encodePVal v⟩ := by
  induction rl generalizing cg i with
  | nil => simp at hi
  | cons r rs ih =>
      cases cg with
      | nil => simp at hlen
      | cons row cgs =>
          rcases List.nodup_cons.mp hndr with ⟨hrn, hrs⟩
          simp only [List.length_cons] at hlen hi
          rw [stackRecords_cons, find?_append]
          cases i with
          | zero =>
              simp only [List.getElem_cons_zero]
              rw [stackBlock_find? r cl row (hrow row (List.mem_cons_self row cgs)) hndc j hj]
              cases hv : row.getD j none with
              | none =>
                  simp only [Option.map_none', Option.none_orElse]
                  exact stackRecords_find?_none hrn
              | some x => rfl
          | succ k =>
              simp only [List.getElem_cons_succ]
              have hne : r ≠ rs[k] := by
                intro he
                exact hrn (he ▸ List.getElem_mem (by omega))
              have hblock :
                  (stackBlock r cl row).find?
                    (fun t => t.row == rs[k] && t.col == cl[j]) = none := by
                rw [List.find?_eq_none]
                intro t ht
                rcases mem_stackBlock ht with ⟨hrowt, _⟩
                intro hp
                rcases Bool.and_eq_true_iff.mp hp with ⟨h1, _⟩
                exact hne (hrowt ▸ eq_of_beq h1)
              rw [hblock]
              exact ih cgs (by omega) (fun rw hrw => hrow rw (List.mem_cons_of_mem row hrw))
                hrs k (by omega)

theorem stackRecords_row_mem (rl cl : List PVal) (cg : List (List (Option PVal)))
    (hlen : cg.length = rl.length) (hrow : ∀ row ∈ cg, row.length = cl.length)
    (i : Nat) (hi : i < rl.length) (hne : (cg[i]).any Option.isSome = true) :
    rl[i] ∈ (stackRecords ⟨rl, cl, cg⟩).map (·.row) := by
  rcases List.any_eq_true.mp hne with ⟨v, hv, hvs⟩
  rcases List.mem_iff_getElem.mp hv with ⟨j, hj, hvj⟩
  rcases Option.isSome_iff_exists.mp hvs with ⟨x, rfl⟩
  have hjc : j < cl.length := by
    rw [← hrow (cg[i]) (List.getElem_mem (by omega))]
    exact hj
  refine List.mem_map.mpr ⟨⟨rl[i], cl[j], encodePVal x⟩, ?_, rfl⟩
  refine List.mem_flatMap.mpr ⟨(rl[i], cg[i]), mem_zip_of_getElem rl cg i hi (by omega), ?_⟩
  refine List.mem_filterMap.mpr ⟨(cl[j], (cg[i])[j]), mem_zip_of_getElem cl (cg[i]) j hjc hj, ?_⟩
  rw [hvj]
  rfl

theorem stackRecords_col_mem (rl cl : List PVal) (cg : List (List (Option PVal)))
    (hlen : cg.length = rl.length) (hrow : ∀ row ∈ cg, row.length = cl.length)
    (j : Nat) (hj : j < cl.length) (hne : (gridCol cg j).any Option.isSome = true) :
    cl[j] ∈ (stackRecords ⟨rl, cl, cg⟩).map (·.col) := by
  rcases List.any_eq_true.mp hne with ⟨v, hv, hvs⟩
  rcases List.mem_map.mp hv with ⟨row, hrmem, hrv⟩
  rcases List.mem_iff_getElem.mp hrmem with ⟨i, hi, hrieq⟩
  rcases Option.isSome_iff_exists.mp hvs with ⟨x, rfl⟩
  have hjr : j < row.length := by
    rw [hrow row hrmem]
    exact hj
  have hgd : row[j] = some x := by
    rw [← List.getD_eq_getElem row none hjr, hrv]
  have hcgj : j < (cg[i]).length := by
    rw [hrieq]
    exact hjr
  refine List.mem_map.mpr ⟨⟨rl[i], cl[j], encodePVal x⟩, ?_, rfl⟩
  refine List.mem_flatMap.mpr ⟨(rl[i], cg[i]),
    mem_zip_of_getElem rl cg i (by omega) (by omega), ?_⟩
  refine List.mem_filterMap.mpr ⟨(cl[j], (cg[i])[j]),
    mem_zip_of_getElem cl (cg[i]) j hj hcgj, ?_⟩
  have hsome : (cg[i])[j] = some x := by
    have h2 : (cg[i])[j] = row[j] := by
      congr 1
    rw [h2]
    exact hgd
  rw [hsome]
  rfl

theorem coordKeyEq_iff {a b : Coord} :
    coordKeyEq a b = true ↔ (a.row, a.col) = (b.row, b.col) := by
  constructor
  · intro h
    rcases Bool.and_eq_true_iff.mp h with ⟨h1, h2⟩
    rw [eq_of_beq h1, eq_of_beq h2]
  · intro h
    rcases Prod.mk.injEq .. ▸ h with ⟨h1, h2⟩
    simp only [coordKeyEq]
    rw [h1, h2]
    simp

theorem block_keys_sublist (r : PVal) (cl : List PVal) (row : List (Option PVal)) :
    ((stackBlock r cl row).map fun t => (t.row, t.col)).Sublist
      (cl.map fun c => (r, c)) := by
  induction cl generalizing row with
  | nil => simp [stackBlock]
  | cons c cs ih =>
      cases row with
      | nil =>
          simp only [stackBlock, List.zip_nil_right, List.filterMap_nil, List.map_nil]
          exact List.nil_sublist _
      | cons v vs =>
          cases v with
          | none =>
              simp only [stackBlock, List.zip_cons_cons, List.filterMap_cons,
                Option.map_none', List.map_cons]
              exact List.Sublist.cons _ (ih vs)
          | some x =>
              simp only [stackBlock, List.zip_cons_cons, List.filterMap_cons,
                Option.map_some', List.map_cons]
              exact List.Sublist.cons₂ _ (ih vs)

theorem stackRecords_keys_nodup (rl cl : List PVal) (cg : List (List (Option PVal)))
    (hndr : rl.Nodup) (hndc : cl.Nodup) :
    ((stackRecords ⟨rl, cl, cg⟩).map fun t => (t.row, t.col)).Nodup := by
  induction rl generalizing cg with
  | nil => simp [stackRecords]
  | cons r rs ih =>
      cases cg with
      | nil => simp [stackRecords]
      | cons row cgs =>
          rcases List.nodup_cons.mp hndr with ⟨hrn, hrs⟩
          rw [stackRecords_cons, List.map_append]
          rw [List.nodup_append]
          refine ⟨?_, ih cgs hrs, ?_⟩
          · exact (block_keys_sublist r cl row).nodup
              (hndc.map (fun c₁ c₂ h => (Prod.mk.injEq .. ▸ h).2))
          · intro p hp hq
            rcases List.mem_map.mp hp with ⟨t, ht, rfl⟩
            rcases List.mem_map.mp hq with ⟨u, hu, hup⟩
            have h1 : t.row = r := (mem_stackBlock ht).1
            have h2 : u.row ∈ rs := (mem_stackRecords rs cl cgs hu).1
            have h3 : u.row = t.row := (Prod.mk.injEq .. ▸ hup).1
            rw [h3, h1] at h2
            exact hrn h2

theorem upsert_fresh {st : List Coord} {r : Coord}
    (h : st.any (fun t => coordKeyEq t r) = false) :
    upsert st r = st ++ [r] := by
  simp only [upsert, h]
  rfl

theorem foldl_upsert_fresh (recs : List Coord) :
    ∀ (st : List Coord), ((recs.map fun t => (t.row, t.col)).Nodup) →
    (∀ r ∈ recs, st.any (fun t => coordKeyEq t r) = false) →
    recs.foldl upsert st = st ++ recs := by
  induction recs with
  | nil => intro st _ _; simp
  | cons r rs ih =>
      intro st hnd hfresh
      rw [List.map_cons, List.nodup_cons] at hnd
      rcases hnd with ⟨hkr, hnd⟩
      rw [List.foldl_cons, upsert_fresh (hfresh r (List.mem_cons_self r rs))]
      rw [ih (st ++ [r]) hnd ?_]
      · rw [List.append_assoc]
        rfl
      · intro q hq
        rw [List.any_append]
        rw [hfresh q (List.mem_cons_of_mem r hq)]
        simp only [Bool.false_or, List.any_cons, List.any_nil, Bool.or_false]
        rw [Bool.eq_false_iff]
        intro hkey
        exact hkr (coordKeyEq_iff.mp hkey ▸ List.mem_map.mpr ⟨q, hq, rfl⟩)

theorem write_dataframe_eq_stack (D : PandasDF)
    (hnd : ((stackRecords D).map fun t => (t.row, t.col)).Nodup) :
    write_dataframe D [] = stackRecords D := by
  unfold write_dataframe
  by_cases he : (stackRecords D).isEmpty
  · rw [if_pos he]
    rw [List.isEmpty_iff] at he
    exact he.symm
  · rw [if_neg he]
    rw [foldl_upsert_fresh (stackRecords D) [] hnd (by intro r _; rfl)]
    rfl

theorem PVSorted.nodup {l : List PVal} (h : PVSorted l) : l.Nodup :=
  h.imp fun hlt he => by
    subst he
    simp [pvalLt_irrefl] at hlt

theorem unstack_roundtrip (rl cl : List PVal) (cg : List (List (Option PVal)))
    (hlen : cg.length = rl.length) (hrow : ∀ row ∈ cg, row.length = cl.length)
    (hrs : PVSorted rl) (hcs : PVSorted cl)
    (hrne : ∀ row ∈ cg, row.any Option.isSome = true)
    (hcne : ∀ j, j < cl.length → (gridCol cg j).any Option.isSome = true) :
    unstackRecords (stackRecords ⟨rl, cl, cg⟩) = ⟨rl, cl, encodeGrid cg⟩ := by
  have hrowax : dedupSortPV ((stackRecords ⟨rl, cl, cg⟩).map (·.row)) = rl := by
    apply dedupSortPV_eq_of_sorted hrs
    intro x
    constructor
    · intro hx
      rcases List.mem_map.mp hx with ⟨t, ht, rfl⟩
      exact (mem_stackRecords rl cl cg ht).1
    · intro hx
      rcases List.mem_iff_getElem.mp hx with ⟨i, hi, rfl⟩
      exact stackRecords_row_mem rl cl cg hlen hrow i hi
        (hrne (cg[i]) (List.getElem_mem (by omega)))
  have hcolax : dedupSortPV ((stackRecords ⟨rl, cl, cg⟩).map (·.col)) = cl := by
    apply dedupSortPV_eq_of_sorted hcs
    intro x
    constructor
    · intro hx
      rcases List.mem_map.mp hx with ⟨t, ht, rfl⟩
      exact (mem_stackRecords rl cl cg ht).2
    · intro hx
      rcases List.mem_iff_getElem.mp hx with ⟨j, hj, rfl⟩
      exact stackRecords_col_mem rl cl cg hlen hrow j hj (hcne j hj)
  unfold unstackRecords
  rw [hrowax, hcolax]
  have hcells : (rl.map fun r => cl.map fun c =>
      (lookupCoord (stackRecords ⟨rl, cl, cg⟩) r c).map .vStr) = encodeGrid cg := by
    apply List.ext_getElem
    · simp [encodeGrid, hlen]
    · intro i h₁ h₂
      simp only [List.getElem_map]
      have hcgi : i < cg.length := by
        simp at h₁
        omega
      have hgi : (encodeGrid cg)[i] = (cg[i]).map (Option.map fun v =>
          PVal.vStr (encodePVal v)) := by
        simp [encodeGrid]
      rw [hgi]
      apply List.ext_getElem
      · simp [hrow (cg[i]) (List.getElem_mem hcgi)]
      · intro j hj₁ hj₂
        simp only [List.getElem_map]
        have hjc : j < cl.length := by
          simp at hj₁
          omega
        have hjr : j < (cg[i]).length := by
          rw [hrow (cg[i]) (List.getElem_mem hcgi)]
          exact hjc
        have hfind := stackRecords_find? rl cl cg hlen hrow hrs.nodup hcs.nodup i j
          (by simp at h₁; omega) hjc
        unfold lookupCoord
        rw [hfind]
        rw [List.getD_eq_getElem (cg[i]) none hjr]
        cases hv : (cg[i])[j] with
        | none => rfl
        | some x => rfl
  rw [hcells]

/-- C2 counterexample: for a dataframe whose row labels are not sorted,
the write-then-read round trip does not reproduce the frame up to
coercion alone; the unstack pivot re-sorts the row axis. -/
theorem C2_counterexample :
    read_dataframe_full (write_dataframe
        ⟨[.vStr "b", .vStr "a"], [.vStr "c"],
          [[some (.vStr "x")], [some (.vStr "y")]]⟩ []) ≠
      ⟨coerceAxis [.vStr "b", .vStr "a"], coerceAxis [.vStr "c"],
        coerceCellsByColumn (encodeGrid [[some (.vStr "x")], [some (.vStr "y")]])⟩ := by
  decide

/-- C2 (amended): for a dataframe with strictly sorted duplicate-free row
and column labels in which every row and every column holds at least one
non-missing cell, writing via the sparse stack flattening and reading
back with no filters reconstructs the frame exactly up to the best-effort
numeric coercion rules: the axes are numerically coerced all-or-nothing,
and each column of the stringified cells is numerically coerced
all-or-nothing.  For other frames the pivot additionally re-sorts the
axes and drops all-missing rows and columns. -/
theorem C2_roundtrip_coercion (D : PandasDF)
    (hlen : D.cells.length = D.rowLabels.length)
    (hrowlen : ∀ row ∈ D.cells, row.length = D.colLabels.length)
    (hrs : PVSorted D.rowLabels) (hcs : PVSorted D.colLabels)
    (hrne : ∀ row ∈ D.cells, row.any Option.isSome = true)
    (hcne : ∀ j, j < D.colLabels.length →
      (gridCol D.cells j).any Option.isSome = true) :
    read_dataframe_full (write_dataframe D []) =
      ⟨coerceAxis D.rowLabels, coerceAxis D.colLabels,
        coerceCellsByColumn (encodeGrid D.cells)⟩ := by
  obtain ⟨rl, cl, cg⟩ := D
  simp only at hlen hrowlen hrs hcs hrne hcne
  rw [write_dataframe_eq_stack _ (stackRecords_keys_nodup rl cl cg hrs.nodup hcs.nodup)]
  unfold read_dataframe_full reconstruct_dataframe
  by_cases he : (stackRecords ⟨rl, cl, cg⟩).isEmpty
  · rw [if_pos he]
    rw [List.isEmpty_iff] at he
    cases rl with
    | cons r rs =>
        cases cg with
        | nil => simp at hlen
        | cons row cgs =>
            exfalso
            have hm := stackRecords_row_mem (r :: rs) cl (row :: cgs) hlen hrowlen 0
              (by simp) (hrne row (List.mem_cons_self row cgs))
            rw [he] at hm
            simp at hm
    | nil =>
        cases cg with
        | cons row cgs => simp at hlen
        | nil =>
            cases cl with
            | cons c cs =>
                exfalso
                have hc := hcne 0 (by simp)
                simp [gridCol] at hc
            | nil => rfl
  · rw [if_neg he]
    rw [unstack_roundtrip rl cl cg hlen hrowlen hrs hcs hrne hcne]

/-- C2 witness: the amended round trip evaluated on a concrete two-row
frame with a numeric column. -/
theorem C2_roundtrip_coercion_witness :
    read_dataframe_full (write_dataframe
        ⟨[.vStr "r1", .vStr "r2"], [.vStr "val"],
          [[some (.vInt 1)], [some (.vInt 2)]]⟩ []) =
      ⟨coerceAxis [.vStr "r1", .vStr "r2"], coerceAxis [.vStr "val"],
        coerceCellsByColumn (encodeGrid [[some (.vInt 1)], [some (.vInt 2)]])⟩ :=
  C2_roundtrip_coercion
    ⟨[.vStr "r1", .vStr "r2"], [.vStr "val"], [[some (.vInt 1)], [some (.vInt 2)]]⟩
    (by decide) (by decide) (by decide) (by decide) (by decide) (by decide)

/-- Schema metadata of a dense array visible to the query-read path: the
dimension names, attribute names, and the declared fill sentinel of each
attribute (none models a fill lookup failure, which the code absorbs). -/
structure DenseArrayMeta where
  dimNames : List String
  attrNames : List String
  fill : String → Option PVal

/-- Primary-key candidates: dimensions that are also attributes, or the
synthetic row dimension. -/
def pk_candidates (dimNames attrNames : List String) : List String :=
  dimNames.filter fun d => attrNames.contains d || d == "__tiledb_rows"

/-- Primary-key auto-selection when the caller supplies none: a unique
candidate wins, else the synthetic row dimension if it is a dimension,
else no primary key. -/
def auto_select_pk (dimNames attrNames : List String) : Option String :=
  let cands := pk_candidates dimNames attrNames
  if cands.length == 1 then cands.head?
  else if dimNames.contains "__tiledb_rows" then some "__tiledb_rows"
  else none

/-- The primary key effectively in force for a query read. -/
def effective_pk (dimNames attrNames : List String) (pk : Option String) : Option String :=
  match pk with
  | some p => some p
  | none => auto_select_pk dimNames attrNames

/-- The column on which fill filtering is applied: the effective primary
key when it is an attribute present in the result, else the first result
column that is an attribute. -/
def filter_target (attrNames dataCols : List String) (pk : Option String) : Option String :=
  match pk with
  | some p =>
      if dataCols.contains p && attrNames.contains p then some p
      else dataCols.find? fun c => attrNames.contains c
  | none => dataCols.find? fun c => attrNames.contains c

/-- Value of the named column in one result row (columns are positional
against dataCols). -/
def cellOfRow (dataCols : List String) (row : List PVal) (c : String) : Option PVal :=
  ((dataCols.zip row).find? fun p => p.1 == c).map (·.2)

/-- The fill-filtering step of a dense query read: rows whose filter
target column equals the declared fill sentinel are removed; if no target
column or no sentinel is available the rows pass unfiltered. -/
def dense_query_fill_filter (meta : DenseArrayMeta) (dataCols : List String)
    (data : List (List PVal)) (pk : Option String) : List (List PVal) :=
  let pkEff := effective_pk meta.dimNames meta.attrNames pk
  match filter_target meta.attrNames dataCols pkEff with
  | none => data
  | some t =>
      match meta.fill t with
      | none => data
      | some f => data.filter fun row => !(cellOfRow dataCols row t == some f)

/-- C5 counterexample: with zero primary-key candidates and no synthetic
row dimension, no primary key is auto-selected, yet fill filtering is not
skipped: the filter falls back to the first attribute column of the
result and removes the fill-valued row. -/
theorem C5_counterexample :
    effective_pk ["dim0"] ["a", "b"] none = none ∧
    dense_query_fill_filter
        ⟨["dim0"], ["a", "b"], fun c => if c == "a" then some (.vStr "F") else none⟩
        ["a", "b"]
        [[.vStr "F", .vStr "1"], [.vStr "x", .vStr "2"]] none =
      [[.vStr "x", .vStr "2"]] ∧
    ([[PVal.vStr "x", PVal.vStr "2"]] : List (List PVal)) ≠
      [[.vStr "F", .vStr "1"], [.vStr "x", .vStr "2"]] := by
  refine ⟨by decide, ?_, by decide⟩
  rfl

/-- C5 (amended): with no caller-supplied primary key, a unique eligible
candidate is auto-selected; with no unique candidate the synthetic row
dimension is selected whenever it is among the dimensions; fill filtering
is skipped only when no result column is an attribute (or the sentinel
lookup fails); and when no primary key is auto-selected, filtering still
runs against the first result column that is an attribute. -/
theorem C5_pk_fill_policy (meta : DenseArrayMeta) (dataCols : List String)
    (data : List (List PVal)) :
    ((pk_candidates meta.dimNames meta.attrNames).length = 1 →
      effective_pk meta.dimNames meta.attrNames none =
        (pk_candidates meta.dimNames meta.attrNames).head?) ∧
    ((pk_candidates meta.dimNames meta.attrNames).length ≠ 1 →
      meta.dimNames.contains "__tiledb_rows" = true →
      effective_pk meta.dimNames meta.attrNames none = some "__tiledb_rows") ∧
    ((dataCols.find? fun c => meta.attrNames.contains c) = none →
      dense_query_fill_filter meta dataCols data none = data) ∧
    (∀ t f, effective_pk meta.dimNames meta.attrNames none = none →
      (dataCols.find? fun c => meta.attrNames.contains c) = some t →
      meta.fill t = some f →
      dense_query_fill_filter meta dataCols data none =
        data.filter fun row => !(cellOfRow dataCols row t == some f)) := by
  refine ⟨?_, ?_, ?_, ?_⟩
  · intro h1
    unfold effective_pk auto_select_pk
    rw [if_pos (by simp [h1])]
  · intro hne hmem
    unfold effective_pk auto_select_pk
    rw [if_neg (by simp [hne]), if_pos hmem]
  · intro hnone
    unfold dense_query_fill_filter
    cases hpk : effective_pk meta.dimNames meta.attrNames none with
    | none => simp only [filter_target, hpk, hnone]
    | some p =>
        simp only [filter_target, hpk]
        by_cases hc : dataCols.contains p && meta.attrNames.contains p
        · exfalso
          rcases Bool.and_eq_true_iff.mp hc with ⟨hc1, hc2⟩
          have : dataCols.find? (fun c => meta.attrNames.contains c) ≠ none := by
            rw [Ne, List.find?_eq_none]
            push_neg
            exact ⟨p, List.elem_iff.mp hc1, hc2⟩
          exact this hnone
        · rw [if_neg hc, hnone]
  · intro t f hpk hfind hfill
    unfold dense_query_fill_filter
    rw [hpk]
    simp only [filter_target, hfind, hfill]

/-- C5 witness: the synthetic row dimension is the unique candidate and
is auto-selected; a fill-valued row is removed through the fallback
filter column even though the auto-selection yielded no primary key. -/
theorem C5_pk_fill_policy_witness :
    effective_pk ["__tiledb_rows"] ["val"] none = some "__tiledb_rows" :=
  ((C5_pk_fill_policy ⟨["__tiledb_rows"], ["val"], fun _ => none⟩ [] []).1
    (by decide)).trans (by decide)

/-- A row selector passed to the indexing operator. -/
inductive RowSpec where
  | pslice (s : PySlice)
  | intRow (i : Int)
  | strRow (s : String)
  | strList (l : List String)
deriving DecidableEq, Repr

/-- A column selector of a 2-tuple key (modelled by name; positional
integer selectors are resolved to names against the schema before the
read call). -/
inductive ColKey where
  | one (c : String)
  | many (l : List String)
deriving DecidableEq, Repr

/-- A key passed to the indexing operator: a bare selector or a
(row-selector, column-selector) 2-tuple. -/
inductive FrameKey where
  | single (r : RowSpec)
  | pair (r : RowSpec) (c : ColKey)
deriving DecidableEq, Repr

/-- Column list of a column selector (a bare name becomes a one-name
list). -/
def colKeyList : ColKey → List String
  | .one c => [c]
  | .many l => l

/-- A read issued by the generic frame operator. -/
inductive BaseReadReq where
  | readQuery (condition : String) (columns : Option (List String))
  | readSlice (rows : RowSpec) (columns : Option (List String))
deriving DecidableEq, Repr

/-- The generic frame indexing operator: a string key (bare or as the row
position of a tuple) is a query condition; anything else is a row slice
read. -/
def base_getitem : FrameKey → BaseReadReq
  | .single (.strRow s) => .readQuery s none
  | .single r => .readSlice r none
  | .pair (.strRow s) c => .readQuery s (some (colKeyList c))
  | .pair r c => .readSlice r (some (colKeyList c))

/-- One call to the dense adapter's read with its three selector
arguments. -/
structure DenseReadCall where
  columns : Option (List String)
  query : Option String
  subset : Option RowSpec
deriving DecidableEq, Repr

/-- The dense adapter's overriding indexing operator: a string key is a
single-column selection, a list of strings a column selection, a slice or
integer a row subset, and a 2-tuple a subset plus columns; the query
argument is never populated. -/
def dense_getitem : FrameKey → DenseReadCall
  | .single (.strRow s) => ⟨some [s], none, none⟩
  | .single (.strList l) => ⟨some l, none, none⟩
  | .single r => ⟨none, none, some r⟩
  | .pair r c => ⟨some (colKeyList c), none, some r⟩

/-- C6 counterexample: the dense adapter does not interpret a string key
as a filter condition; it reads that string as a single column name, with
no query argument. -/
theorem C6_counterexample :
    dense_getitem (.single (.strRow "age > 20")) ≠
      ⟨none, some "age > 20", none⟩ ∧
    dense_getitem (.single (.strRow "age > 20")) =
      ⟨some ["age > 20"], none, none⟩ := by
  refine ⟨?_, rfl⟩
  decide

/-- C6 (amended): the generic operator (inherited by the sparse adapter)
interprets a string key as a query condition over all columns, while the
dense adapter's overriding operator interprets a string key as a
single-column selection and never issues a query. -/
theorem C6_string_key_dispatch :
    (∀ s, base_getitem (.single (.strRow s)) = .readQuery s none) ∧
    (∀ s c, base_getitem (.pair (.strRow s) c) =
      .readQuery s (some (colKeyList c))) ∧
    (∀ s, dense_getitem (.single (.strRow s)) = ⟨some [s], none, none⟩) ∧
    (∀ k, (dense_getitem k).query = none) := by
  refine ⟨fun s => rfl, fun s c => rfl, fun s => rfl, fun k => ?_⟩
  cases k with
  | single r => cases r <;> rfl
  | pair r c => rfl

/-- One bound of a nonempty-domain pair: numeric or string-typed. -/
inductive NedBound where
  | num (n : Int)
  | strB (s : String)
deriving DecidableEq, Repr

/-- The metadata of an open array consulted by the shape accessors. -/
structure TDBArray where
  sparse : Bool
  ned : Option (List (NedBound × NedBound))
  ndim : Nat
  dim0IsStr : Bool
  dim0Domain : Int × Int
  engineShape0 : Option Int
  nattr : Nat

/-- Row count of the base shape accessor: sparse arrays use the occupied
span of the first dimension (max - min + 1) when its bounds are numeric,
-1 when not, and 0 when nothing is written; 1-D dense arrays use the full
declared domain extent when the dimension is not string-typed, else -1;
multi-dimensional dense arrays fall back to the engine shape, -1 on
failure. -/
def base_shape_rows (A : TDBArray) : Int :=
  if A.sparse then
    match A.ned with
    | none => 0
    | some [] => 0
    | some (d0 :: _) =>
        match d0 with
        | (.num a, .num b) => b - a + 1
        | _ => -1
  else
    if A.ndim = 1 then
      if !A.dim0IsStr then A.dim0Domain.2 - A.dim0Domain.1 + 1
      else -1
    else
      match A.engineShape0 with
      | some v => v
      | none => -1

/-- Shape of the base accessor. -/
def base_shape (A : TDBArray) : Int × Nat :=
  (base_shape_rows A, A.nattr)

/-- Row count of the dense adapter's overriding shape accessor: 0 when
the nonempty domain is empty, else one past the first dimension's
occupied maximum; none models the error raised on a non-numeric bound. -/
def dense_shape_rows (A : TDBArray) : Option Int :=
  match A.ned with
  | none => some 0
  | some l =>
      if A.ndim = 0 then some 0
      else
        match l.head? with
        | some (_, .num b) => some (b + 1)
        | _ => none

/-- C7 counterexample: a 1-D dense array with declared domain 0..99 of
which only rows 0..3 are written; the dense adapter's shape accessor
reports 4 rows, not the full declared extent of 100 demanded by the
claim (which the base accessor computes). -/
theorem C7_counterexample :
    dense_shape_rows
        ⟨false, some [(.num 0, .num 3)], 1, false, (0, 99), none, 1⟩ = some 4 ∧
    base_shape_rows
        ⟨false, some [(.num 0, .num 3)], 1, false, (0, 99), none, 1⟩ = 100 ∧
    (some (4 : Int) ≠ some (100 : Int)) := by
  refine ⟨rfl, rfl, by decide⟩

/-- C7 (amended): the base accessor computes the sparse row count as
(max - min + 1) of the first dimension's nonempty domain when numeric and
-1 when the dimension bound is string-typed, and the dense row count as
the full declared domain extent when numeric-keyed and -1 otherwise; the
dense adapter's overriding shape accessor instead reports one past the
first dimension's occupied maximum, or 0 for an empty nonempty domain. -/
theorem C7_shape_row_count (A : TDBArray) :
    (A.sparse = true → ∀ a b rest, A.ned = some ((.num a, .num b) :: rest) →
      base_shape_rows A = b - a + 1) ∧
    (A.sparse = true → ∀ s bnd rest, A.ned = some ((.strB s, bnd) :: rest) →
      base_shape_rows A = -1) ∧
    (A.sparse = true → A.ned = none → base_shape_rows A = 0) ∧
    (A.sparse = false → A.ndim = 1 → A.dim0IsStr = false →
      base_shape_rows A = A.dim0Domain.2 - A.dim0Domain.1 + 1) ∧
    (A.sparse = false → A.ndim = 1 → A.dim0IsStr = true →
      base_shape_rows A = -1) ∧
    (A.ndim = 1 → ∀ bnd b rest, A.ned = some ((bnd, .num b) :: rest) →
      dense_shape_rows A = some (b + 1)) ∧
    (A.ned = none → dense_shape_rows A = some 0) := by
  refine ⟨?_, ?_, ?_, ?_, ?_, ?_, ?_⟩
  · intro hs a b rest hned
    simp [base_shape_rows, hs, hned]
  · intro hs s bnd rest hned
    simp [base_shape_rows, hs, hned]
  · intro hs hned
    simp [base_shape_rows, hs, hned]
  · intro hs h1 hstr
    simp [base_shape_rows, hs, h1, hstr]
  · intro hs h1 hstr
    simp [base_shape_rows, hs, h1, hstr]
  · intro h1 bnd b rest hned
    simp [dense_shape_rows, hned, h1]
  · intro hned
    simp [dense_shape_rows, hned]

/-- C7 witness: the amended accessor characterizations evaluated on a
sparse array occupying rows 2..5. -/
theorem C7_shape_row_count_witness :
    base_shape_rows ⟨true, some [(.num 2, .num 5)], 1, false, (0, 0), none, 1⟩ = 4 :=
  (C7_shape_row_count ⟨true, some [(.num 2, .num 5)], 1, false, (0, 0), none, 1⟩).1
    rfl 2 5 [] rfl

/-- A caller-supplied, possibly already-open engine array resource. -/
structure ExtArray where
  isopen : Bool
  mode : String
  uri : String
deriving DecidableEq, Repr

/-- Errors raised by the adapter constructor (configuration errors). -/
inductive FrameInitError where
  | notOpen
  | modeMismatch (actual requested : String)
  | missingSource
deriving DecidableEq, Repr

/-- Constructor-visible state of a successfully built adapter: its uri,
effective mode, external-ownership flag, and the metadata caches, all of
which start unset. -/
structure FrameInit where
  uri : String
  mode : Option String
  arrayPassedIn : Bool
  shapeCache : Option (Int × Nat)
deriving DecidableEq, Repr

/-- The base constructor: an external array must be open and, when a mode
is also requested, its open mode must match, otherwise a configuration
error is raised before anything is read or written; with no external
array a uri is required.  (Engine context handling is omitted; it does
not touch array data either.) -/
def init_base_frame (tiledb_array_obj : Option ExtArray) (uri : Option String)
    (mode : Option String) : Except FrameInitError FrameInit :=
  match tiledb_array_obj with
  | some arr =>
      if !arr.isopen then .error .notOpen
      else
        match mode with
        | some m =>
            if arr.mode ≠ m then .error (.modeMismatch arr.mode m)
            else .ok ⟨arr.uri, some arr.mode, true, none⟩
        | none => .ok ⟨arr.uri, some arr.mode, true, none⟩
  | none =>
      match uri with
      | some u => .ok ⟨u, mode, false, none⟩
      | none => .error .missingSource

/-- C8: constructing an adapter from an open external resource together
with a requested mode different from the resource's open mode fails with
a configuration error; the constructor returns the error without
producing an adapter, so no read or write can be attempted. -/
theorem C8_mode_mismatch_rejected (arr : ExtArray) (m : String)
    (uri : Option String) (hopen : arr.isopen = true) (hne : arr.mode ≠ m) :
    init_base_frame (some arr) uri (some m) =
      .error (.modeMismatch arr.mode m) := by
  simp [init_base_frame, hopen, hne]

/-- C8 witness: a read-mode resource with write mode requested. -/
theorem C8_mode_mismatch_rejected_witness :
    init_base_frame (some ⟨true, "r", "u"⟩) none (some "w") =
      .error (.modeMismatch "r" "w") :=
  C8_mode_mismatch_rejected ⟨true, "r", "u"⟩ "w" none rfl (by decide)

/-- Underlying sparse array state relevant to the shape computation: rows
0..nrows-1 occupied, a fixed attribute count. -/
structure ArrayState where
  nrows : Nat
  nattr : Nat
deriving DecidableEq, Repr

/-- Per-instance metadata cache of an adapter. -/
structure MetaCache where
  shapeCache : Option (Int × Nat)
deriving DecidableEq, Repr

/-- Shape as recomputed from the array: 0 rows when nothing is written,
else the occupied span 0..nrows-1, giving nrows. -/
def compute_shape (st : ArrayState) : Int × Nat :=
  (if st.nrows = 0 then 0 else (st.nrows : Int), st.nattr)

/-- The lazily cached shape accessor: the cached value is returned when
present, otherwise the shape is computed from the array and cached. -/
def shape_get (st : ArrayState) (c : MetaCache) : (Int × Nat) × MetaCache :=
  match c.shapeCache with
  | some v => (v, c)
  | none => (compute_shape st, ⟨some (compute_shape st)⟩)

/-- A batch append of k rows: the array grows, the cache is untouched (no
write path invalidates any cache). -/
def write_batch (st : ArrayState) (c : MetaCache) (k : Nat) : ArrayState × MetaCache :=
  (⟨st.nrows + k, st.nattr⟩, c)

/-- C9: the shape is computed lazily on first access and cached; a
subsequent append leaves the cache in place, so the next shape access
returns the same cached value, which differs from the shape recomputed
from the grown array. -/
theorem C9_cache_never_invalidated (st : ArrayState) (k : Nat) (hk : 1 ≤ k) :
    (shape_get st ⟨none⟩).1 = compute_shape st ∧
    (shape_get st ⟨none⟩).2 = ⟨some (compute_shape st)⟩ ∧
    (write_batch st (shape_get st ⟨none⟩).2 k).2 = (shape_get st ⟨none⟩).2 ∧
    (shape_get (write_batch st (shape_get st ⟨none⟩).2 k).1
        (write_batch st (shape_get st ⟨none⟩).2 k).2).1 = compute_shape st ∧
    compute_shape (write_batch st (shape_get st ⟨none⟩).2 k).1 ≠ compute_shape st := by
  refine ⟨rfl, rfl, rfl, rfl, ?_⟩
  simp only [write_batch, compute_shape]
  intro h
  have h1 := congrArg Prod.fst h
  simp only at h1
  by_cases h0 : st.nrows = 0
  · rw [if_neg (by omega), if_pos h0] at h1
    have h2 : st.nrows + k = 0 := by exact_mod_cast h1
    omega
  · rw [if_neg (by omega), if_neg h0] at h1
    have h2 : st.nrows + k = st.nrows := by exact_mod_cast h1
    omega

/-- C9 witness: an empty two-attribute array, cached shape, then one
appended row. -/
theorem C9_cache_never_invalidated_witness :
    (shape_get ⟨0, 2⟩ ⟨none⟩).1 = compute_shape ⟨0, 2⟩ ∧
    compute_shape (write_batch ⟨0, 2⟩ (shape_get ⟨0, 2⟩ ⟨none⟩).2 1).1 ≠
      compute_shape ⟨0, 2⟩ :=
  ⟨(C9_cache_never_invalidated ⟨0, 2⟩ 1 (by decide)).1,
   (C9_cache_never_invalidated ⟨0, 2⟩ 1 (by decide)).2.2.2.2⟩

/-- True when a string contains the null character. -/
def containsNull (s : String) : Bool := s.toList.contains (Char.ofNat 0)

/-- The per-cell effect of the dense reader's null-character replacement:
a string cell matching the null-character pattern is replaced wholesale
by NaN; other cells pass through. -/
def scrubCell : Option PVal → Option PVal
  | some (.vStr s) => if containsNull s then none else some (.vStr s)
  | v => v

/-- The post-processing step every dense read result passes through
before being returned, whichever branch (query, subset, or full scan)
produced it. -/
def dense_null_scrub (cells : List (List (Option PVal))) : List (List (Option PVal)) :=
  cells.map fun row => row.map scrubCell

/-- C10: after the dense reader's null-character replacement, no returned
string cell contains the null character: a cell containing it comes back
as NaN, and every other cell is unchanged. -/
theorem C10_null_replacement (cells : List (List (Option PVal))) :
    (∀ row ∈ dense_null_scrub cells, ∀ v ∈ row, ∀ s,
      v = some (PVal.vStr s) → containsNull s = false) ∧
    (∀ s, containsNull s = true → scrubCell (some (.vStr s)) = none) ∧
    (∀ s, containsNull s = false → scrubCell (some (.vStr s)) = some (.vStr s)) ∧
    (∀ n, scrubCell (some (.vInt n)) = some (.vInt n)) ∧
    scrubCell none = none := by
  refine ⟨?_, ?_, ?_, fun n => rfl, rfl⟩
  · intro row hrow v hv s hvs
    rcases List.mem_map.mp hrow with ⟨row0, hrow0, rfl⟩
    rcases List.mem_map.mp hv with ⟨u, hu, rfl⟩
    cases u with
    | none => simp [scrubCell] at hvs
    | some p =>
        cases p with
        | vInt n => simp [scrubCell] at hvs
        | vStr t =>
            by_cases hn : containsNull t = true
            · simp [scrubCell, hn] at hvs
            · simp only [scrubCell, if_neg hn, Option.some.injEq, PVal.vStr.injEq] at hvs
              rw [← hvs]
              exact Bool.not_eq_true _ ▸ hn
  · intro s hs
    simp [scrubCell, hs]
  · intro s hs
    simp [scrubCell, hs]

/-- C10 witness: a grid holding a null-bearing string, a clean string and
a number. -/
theorem C10_null_replacement_witness :
    dense_null_scrub [[some (.vStr (String.mk [Char.ofNat 0])), some (.vStr "ok"),
        some (.vInt 7)]] = [[none, some (.vStr "ok"), some (.vInt 7)]] ∧
    containsNull (String.mk [Char.ofNat 0]) = true := by
  constructor
  · have h1 := (C10_null_replacement
      [[some (.vStr (String.mk [Char.ofNat 0])), some (.vStr "ok"), some (.vInt 7)]]).2.1
      (String.mk [Char.ofNat 0]) (by decide)
    have h2 := (C10_null_replacement
      [[some (.vStr (String.mk [Char.ofNat 0])), some (.vStr "ok"), some (.vInt 7)]]).2.2.1
      "ok" (by decide)
    simp only [dense_null_scrub, List.map_cons, List.map_nil, h1, h2]
    rfl
  · decide
